import Mathlib

/-!
Shallow embedding of the `bencode` crate (src/bencode.rs, src/decoder.rs,
src/encoder.rs): the `Bencode` value model, the one-byte-lookahead
recursive-descent decoder, and the canonical encoder.  Bytes are modelled
as `Nat` (values 0..255), the byte source as the list of not-yet-read
bytes, and the `BTreeMap<String, Bencode>` of dictionary values as an
association list sorted strictly ascending by byte-lexicographic key
order (the iteration order `BTreeMap` guarantees), with keys kept as the
underlying UTF-8 byte sequences.  The mutually recursive parsing
routines are given a fuel parameter to express the recursion; fuel is
always taken large enough that exhaustion never occurs on the inputs of
interest.  A `todo!()` in the Rust source is modelled by the `panicked`
result.
-/

/-- `Bencode` from src/bencode.rs: Integer(i64), String(Vec<u8>),
List(Vec<Bencode>), Dictionary(BTreeMap<String, Bencode>). -/
inductive Bencode where
  | integer : Int → Bencode
  | string : List Nat → Bencode
  | list : List Bencode → Bencode
  | dictionary : List (List Nat × Bencode) → Bencode

/-- `DecoderError` from src/decoder.rs.  `InvalidUtf8` keeps the raw
bytes that failed validation in place of Rust's `FromUtf8Error`; the
variant the source calls `IO` (a fault other than clean end-of-input)
is named `IOFault` here, after the spec's name for it. -/
inductive DecoderError where
  | EOF
  | IOFault
  | NAN
  | EmptyNumber
  | IntegerOverflow
  | DictionaryKeyIsNotString : Bencode → DecoderError
  | DictionaryValueMissing
  | DictionaryEmptyKey
  | InvalidUtf8 : List Nat → DecoderError

/-- Outcome of running a decoder routine: a value, a returned error, a
reached `todo!()` (Rust panic), or exhaustion of the modelling fuel. -/
inductive DResult (α : Type) where
  | ok : α → DResult α
  | err : DecoderError → DResult α
  | panicked : DResult α
  | outOfFuel : DResult α

/-- `Decoder<R>` state from src/decoder.rs: the byte source (modelled by
the list of bytes not yet read) and the most recently read byte
(`current`, initialised to 0 by `Decoder::new`). -/
structure Decoder where
  input : List Nat
  current : Nat
deriving DecidableEq

/-- `Decoder::new`: wraps a byte source, `current` starts at 0. -/
def mkDecoder (input : List Nat) : Decoder := ⟨input, 0⟩

/-- `Decoder::advance`: read one byte; a read of zero bytes is `EOF`. -/
def advance (d : Decoder) : Except DecoderError Nat × Decoder :=
  match d.input with
  | [] => (.error .EOF, d)
  | b :: rest => (.ok b, ⟨rest, b⟩)

/-- `Decoder::expect`: check the current byte without consuming. -/
def expect (d : Decoder) (expected : Nat) (e : DecoderError) :
    Except DecoderError Unit :=
  if d.current = expected then .ok () else .error e

/-- `Decoder::read_bytes` via `read_exact`: take exactly `amount` bytes,
or fail with `EOF` (consuming the rest) when fewer are available. -/
def read_bytes (d : Decoder) (amount : Nat) :
    Except DecoderError (List Nat) × Decoder :=
  if amount ≤ d.input.length then
    (.ok (d.input.take amount), ⟨d.input.drop amount, d.current⟩)
  else (.error .EOF, ⟨[], d.current⟩)

/-- `Decoder::decode_digit`: `(current as char).to_digit(10)`. -/
def decode_digit (current : Nat) : Option Int :=
  if 48 ≤ current ∧ current ≤ 57 then some ((current : Int) - 48) else none

/-- `Decoder::decode_integer_sign`: a leading `-` consumes one byte and
yields sign `-1`; anything else yields `1` without consuming. -/
def decode_integer_sign (d : Decoder) : Except DecoderError Int × Decoder :=
  if d.current = 45 then
    match advance d with
    | (.ok _, d') => (.ok (-1), d')
    | (.error e, d') => (.error e, d')
  else (.ok 1, d)

/-- `i64::MAX`. -/
def i64Max : Int := 9223372036854775807

/-- `i64::MIN`. -/
def i64Min : Int := -9223372036854775808

/-- `i64::checked_mul`. -/
def checked_mul (a b : Int) : Option Int :=
  if i64Min ≤ a * b ∧ a * b ≤ i64Max then some (a * b) else none

/-- `i64::checked_add`. -/
def checked_add (a b : Int) : Option Int :=
  if i64Min ≤ a + b ∧ a + b ≤ i64Max then some (a + b) else none

/-- The `while let Some(digit) = self.decode_digit()` loop of
`Decoder::decode_number`: accumulate digits by checked
multiply-by-ten-and-add, advancing past each digit. -/
def decode_number_loop : Nat → Int → Decoder → DResult Int × Decoder
  | 0, _, d => (.outOfFuel, d)
  | fuel + 1, number, d =>
    match decode_digit d.current with
    | none => (.ok number, d)
    | some digit =>
      match checked_mul number 10 with
      | none => (.err .IntegerOverflow, d)
      | some m =>
        match checked_add m digit with
        | none => (.err .IntegerOverflow, d)
        | some number' =>
          match advance d with
          | (.error e, d') => (.err e, d')
          | (.ok _, d') => decode_number_loop fuel number' d'

/-- Continuation-byte test for UTF-8 validation (0x80..0xBF). -/
def isCont (b : Nat) : Bool := 128 ≤ b && b ≤ 191

/-- UTF-8 validity of a byte sequence, as checked by Rust's
`String::from_utf8` (RFC 3629: no surrogates, no overlongs, max
U+10FFFF). -/
def isUtf8 : List Nat → Bool
  | [] => true
  | b :: rest =>
    if b ≤ 127 then isUtf8 rest
    else if 194 ≤ b && b ≤ 223 then
      match rest with
      | c1 :: rest' => isCont c1 && isUtf8 rest'
      | [] => false
    else if b = 224 then
      match rest with
      | c1 :: c2 :: rest' => (160 ≤ c1 && c1 ≤ 191) && isCont c2 && isUtf8 rest'
      | _ => false
    else if (225 ≤ b && b ≤ 236) || b = 238 || b = 239 then
      match rest with
      | c1 :: c2 :: rest' => isCont c1 && isCont c2 && isUtf8 rest'
      | _ => false
    else if b = 237 then
      match rest with
      | c1 :: c2 :: rest' => (128 ≤ c1 && c1 ≤ 159) && isCont c2 && isUtf8 rest'
      | _ => false
    else if b = 240 then
      match rest with
      | c1 :: c2 :: c3 :: rest' =>
        (144 ≤ c1 && c1 ≤ 191) && isCont c2 && isCont c3 && isUtf8 rest'
      | _ => false
    else if 241 ≤ b && b ≤ 243 then
      match rest with
      | c1 :: c2 :: c3 :: rest' =>
        isCont c1 && isCont c2 && isCont c3 && isUtf8 rest'
      | _ => false
    else if b = 244 then
      match rest with
      | c1 :: c2 :: c3 :: rest' =>
        (128 ≤ c1 && c1 ≤ 143) && isCont c2 && isCont c3 && isUtf8 rest'
      | _ => false
    else false

/-- `String::from_utf8`: keep the bytes when they are valid UTF-8 (a
Rust `String` is exactly its UTF-8 byte vector), fail otherwise. -/
def from_utf8 (bytes : List Nat) : Option (List Nat) :=
  if isUtf8 bytes then some bytes else none

/-- Strict byte-lexicographic order on byte sequences: the `Ord` of
Rust `String` restricted to its UTF-8 bytes. -/
def bytesLt : List Nat → List Nat → Bool
  | _, [] => false
  | [], _ :: _ => true
  | a :: xs, b :: ys => a < b || (a == b && bytesLt xs ys)

/-- `BTreeMap::insert` on the sorted-association-list model: place the
pair at its ordered position, replacing an equal key (last write
wins). -/
def mapInsert (key : List Nat) (value : Bencode) :
    List (List Nat × Bencode) → List (List Nat × Bencode)
  | [] => [(key, value)]
  | (k, v) :: rest =>
    if bytesLt key k then (key, value) :: (k, v) :: rest
    else if key = k then (key, value) :: rest
    else (k, v) :: mapInsert key value rest

mutual

/-- `Decoder::decode`: advance to the first byte of the value, then
dispatch. -/
def decode : Nat → Decoder → DResult Bencode × Decoder
  | 0, d => (.outOfFuel, d)
  | fuel + 1, d =>
    match advance d with
    | (.error e, d') => (.err e, d')
    | (.ok _, d') => decode_current fuel d'

/-- `Decoder::decode_current`: dispatch on the current byte; `i` for
integers, an ASCII digit for strings, `l` for lists, `d` for
dictionaries, and `todo!()` (a panic) for anything else. -/
def decode_current : Nat → Decoder → DResult Bencode × Decoder
  | 0, d => (.outOfFuel, d)
  | fuel + 1, d =>
    if d.current = 105 then decode_integer fuel d
    else if 48 ≤ d.current ∧ d.current ≤ 57 then decode_string fuel d
    else if d.current = 108 then decode_list fuel d
    else if d.current = 100 then decode_dictionary fuel d
    else (.panicked, d)

/-- `Decoder::decode_integer`: `i`, optional sign, digits, `e`. -/
def decode_integer : Nat → Decoder → DResult Bencode × Decoder
  | 0, d => (.outOfFuel, d)
  | fuel + 1, d =>
    match advance d with
    | (.error e, d') => (.err e, d')
    | (.ok b, d') =>
      if b = 101 then (.err .EmptyNumber, d')
      else
        match decode_integer_sign d' with
        | (.error e, d'') => (.err e, d'')
        | (.ok sign, d'') =>
          match decode_number_loop fuel 0 d'' with
          | (.ok number, d₃) =>
            match expect d₃ 101 .NAN with
            | .error e => (.err e, d₃)
            | .ok _ => (.ok (.integer (sign * number)), d₃)
          | (.err e, d₃) => (.err e, d₃)
          | (.panicked, d₃) => (.panicked, d₃)
          | (.outOfFuel, d₃) => (.outOfFuel, d₃)

/-- `Decoder::decode_string`: decimal length, `:`, then that many raw
bytes. -/
def decode_string : Nat → Decoder → DResult Bencode × Decoder
  | 0, d => (.outOfFuel, d)
  | fuel + 1, d =>
    match decode_number_loop fuel 0 d with
    | (.ok length, d') =>
      match expect d' 58 .NAN with
      | .error e => (.err e, d')
      | .ok _ =>
        match read_bytes d' length.toNat with
        | (.error e, d'') => (.err e, d'')
        | (.ok bytes, d'') => (.ok (.string bytes), d'')
    | (.err e, d') => (.err e, d')
    | (.panicked, d') => (.panicked, d')
    | (.outOfFuel, d') => (.outOfFuel, d')

/-- `Decoder::decode_list`: `l`, then values until `e`. -/
def decode_list : Nat → Decoder → DResult Bencode × Decoder
  | 0, d => (.outOfFuel, d)
  | fuel + 1, d => decode_list_loop fuel [] d

/-- The `while self.advance()? != b'e'` loop of `decode_list`. -/
def decode_list_loop : Nat → List Bencode → Decoder → DResult Bencode × Decoder
  | 0, _, d => (.outOfFuel, d)
  | fuel + 1, items, d =>
    match advance d with
    | (.error e, d') => (.err e, d')
    | (.ok b, d') =>
      if b = 101 then (.ok (.list items), d')
      else
        match decode_current fuel d' with
        | (.ok item, d'') => decode_list_loop fuel (items ++ [item]) d''
        | (.err e, d'') => (.err e, d'')
        | (.panicked, d'') => (.panicked, d'')
        | (.outOfFuel, d'') => (.outOfFuel, d'')

/-- `Decoder::decode_dictionary`: `d`, then key/value pairs until `e`. -/
def decode_dictionary : Nat → Decoder → DResult Bencode × Decoder
  | 0, d => (.outOfFuel, d)
  | fuel + 1, d => decode_dict_loop fuel [] d

/-- The `while self.advance()? != b'e'` loop of `decode_dictionary`:
decode a value, require it to be a string, validate it as UTF-8, decode
the associated value with `decode`, insert into the map. -/
def decode_dict_loop :
    Nat → List (List Nat × Bencode) → Decoder → DResult Bencode × Decoder
  | 0, _, d => (.outOfFuel, d)
  | fuel + 1, map, d =>
    match advance d with
    | (.error e, d') => (.err e, d')
    | (.ok b, d') =>
      if b = 101 then (.ok (.dictionary map), d')
      else
        match decode_current fuel d' with
        | (.ok (.string raw_key), d'') =>
          match from_utf8 raw_key with
          | none => (.err (.InvalidUtf8 raw_key), d'')
          | some key =>
            match decode fuel d'' with
            | (.ok value, d₃) => decode_dict_loop fuel (mapInsert key value map) d₃
            | (.err e, d₃) => (.err e, d₃)
            | (.panicked, d₃) => (.panicked, d₃)
            | (.outOfFuel, d₃) => (.outOfFuel, d₃)
        | (.ok bencode, d'') => (.err (.DictionaryKeyIsNotString bencode), d'')
        | (.err e, d'') => (.err e, d'')
        | (.panicked, d'') => (.panicked, d'')
        | (.outOfFuel, d'') => (.outOfFuel, d'')

end

/-- Decimal digit bytes of a natural number, most significant first,
with an explicit fuel argument to keep the recursion structural. -/
def natDigitsAux : Nat → Nat → List Nat
  | _, 0 => []
  | n, fuel + 1 =>
    if n < 10 then [n + 48]
    else natDigitsAux (n / 10) fuel ++ [n % 10 + 48]

/-- Decimal digit bytes of a natural number (`0` is the single byte
`'0'`), as produced by Rust's `Display` for unsigned values. -/
def natToDigits (n : Nat) : List Nat := natDigitsAux n (n + 1)

/-- Byte output of `write!("{}", number)` for an `i64`: a leading `-`
for negative values, then the decimal digits of the magnitude. -/
def intToDecimal (n : Int) : List Nat :=
  if n < 0 then 45 :: natToDigits (-n).toNat else natToDigits n.toNat

/-- `Encoder::encode_number`: `write!("i{}e", number)`. -/
def encode_number (number : Int) : List Nat := 105 :: intToDecimal number ++ [101]

/-- `Encoder::encode_string`: `write!("{}:", bytes.len())` then the raw
bytes. -/
def encode_string (bytes : List Nat) : List Nat :=
  natToDigits bytes.length ++ 58 :: bytes

mutual

/-- `Encoder::encode`: dispatch on the value variant; the sink is a
`Vec<u8>`, which never fails, so the output is the byte list itself. -/
def encode : Bencode → List Nat
  | .integer number => encode_number number
  | .string bytes => encode_string bytes
  | .list l => 108 :: encode_items l ++ [101]
  | .dictionary m => 100 :: encode_pairs m ++ [101]

/-- The `list.iter().try_for_each` of `Encoder::encode_list`. -/
def encode_items : List Bencode → List Nat
  | [] => []
  | x :: xs => encode x ++ encode_items xs

/-- The `dictionary.into_iter().try_for_each` of
`Encoder::encode_dictionary`: each key as a string, then its value, in
the map's (ascending) order. -/
def encode_pairs : List (List Nat × Bencode) → List Nat
  | [] => []
  | (k, v) :: rest => encode_string k ++ encode v ++ encode_pairs rest

end

/-- Strict ascending key order of an association list, the invariant
`BTreeMap<String, Bencode>` maintains for its iteration order. -/
def sortedKeys : List (List Nat × Bencode) → Bool
  | [] => true
  | [_] => true
  | (k1, _) :: (k2, v2) :: rest =>
    bytesLt k1 k2 && sortedKeys ((k2, v2) :: rest)

mutual

/-- Well-formedness of a value for the round-trip statement: integers
lie strictly between `i64::MIN` and `i64::MAX + 1` (the minimum itself
is excluded, its magnitude overflows the decoder's accumulator),
string and key lengths fit in an `i64`, dictionary keys are valid UTF-8
(the `String` type invariant) and strictly ascending (the `BTreeMap`
invariant). -/
def wf : Bencode → Bool
  | .integer n => decide (i64Min < n) && decide (n ≤ i64Max)
  | .string bytes => decide ((bytes.length : Int) ≤ i64Max)
  | .list l => wfItems l
  | .dictionary m => sortedKeys m && wfPairs m

/-- Well-formedness of every element of a list value. -/
def wfItems : List Bencode → Bool
  | [] => true
  | x :: xs => wf x && wfItems xs

/-- Well-formedness of every pair of a dictionary value. -/
def wfPairs : List (List Nat × Bencode) → Bool
  | [] => true
  | (k, v) :: rest =>
    isUtf8 k && decide ((k.length : Int) ≤ i64Max) && wf v && wfPairs rest

end

mutual

/-- Fuel sufficient for `decode_current` to decode the encoding of a
value. -/
def fuelCur : Bencode → Nat
  | .integer n => (intToDecimal n).length + 4
  | .string bytes => (natToDigits bytes.length).length + 4
  | .list l => fuelItems l + 2
  | .dictionary m => fuelPairs m + 2

/-- Fuel sufficient for `decode_list_loop` over the encodings of the
given elements followed by the terminator. -/
def fuelItems : List Bencode → Nat
  | [] => 2
  | x :: xs => fuelCur x + fuelItems xs + 2

/-- Fuel sufficient for `decode_dict_loop` over the encodings of the
given pairs followed by the terminator. -/
def fuelPairs : List (List Nat × Bencode) → Nat
  | [] => 2
  | (k, v) :: rest => (natToDigits k.length).length + fuelCur v + fuelPairs rest + 6

end

/-- The byte `current` holds after a value has been decoded: `:` for a
string (`read_bytes` does not touch `current`), the terminating `e`
for everything else. -/
def finalCur : Bencode → Nat
  | .string _ => 58
  | _ => 101

/-- Left-to-right decimal value of a digit-byte list on top of an
accumulator, mirroring the decoder's accumulation. -/
def valAcc (acc : Int) : List Nat → Int
  | [] => acc
  | b :: bs => valAcc (acc * 10 + ((b : Int) - 48)) bs

theorem valAcc_append (xs ys : List Nat) :
    ∀ acc, valAcc acc (xs ++ ys) = valAcc (valAcc acc xs) ys := by
  induction xs with
  | nil => intro acc; rfl
  | cons b bs ih =>
    intro acc; simp only [List.cons_append, valAcc, List.append_eq, ih]

theorem valAcc_ge (ds : List Nat) :
    ∀ acc : Int, (∀ b ∈ ds, 48 ≤ b) → 0 ≤ acc → acc ≤ valAcc acc ds := by
  induction ds with
  | nil => intro acc _ _; exact le_refl acc
  | cons b bs ih =>
    intro acc hds hacc
    have hb : 48 ≤ b := hds b (List.mem_cons_self b bs)
    have hb' : (48 : Int) ≤ (b : Int) := by exact_mod_cast hb
    have hstep : acc ≤ acc * 10 + ((b : Int) - 48) := by nlinarith
    have hpos : 0 ≤ acc * 10 + ((b : Int) - 48) := by nlinarith
    have := ih (acc * 10 + ((b : Int) - 48))
      (fun x hx => hds x (List.mem_cons_of_mem b hx)) hpos
    calc acc ≤ acc * 10 + ((b : Int) - 48) := hstep
      _ ≤ valAcc (acc * 10 + ((b : Int) - 48)) bs := this
      _ = valAcc acc (b :: bs) := rfl

theorem natDigitsAux_digits (fuel : Nat) :
    ∀ n, ∀ b ∈ natDigitsAux n fuel, 48 ≤ b ∧ b ≤ 57 := by
  induction fuel with
  | zero => intro n b hb; simp [natDigitsAux] at hb
  | succ fuel ih =>
    intro n b hb
    by_cases h : n < 10
    · simp [natDigitsAux, h] at hb
      omega
    · simp only [natDigitsAux, if_neg h, List.mem_append, List.mem_singleton] at hb
      rcases hb with hb | hb
      · exact ih (n / 10) b hb
      · have : n % 10 < 10 := Nat.mod_lt n (by omega)
        omega

theorem natDigitsAux_ne_nil (fuel n : Nat) (h : 0 < fuel) :
    natDigitsAux n fuel ≠ [] := by
  cases fuel with
  | zero => omega
  | succ fuel =>
    by_cases h10 : n < 10
    · simp [natDigitsAux, h10]
    · simp [natDigitsAux, h10]

theorem valAcc_natDigitsAux (fuel : Nat) :
    ∀ n, n < fuel → ∀ acc : Int,
      valAcc acc (natDigitsAux n fuel) =
        acc * 10 ^ (natDigitsAux n fuel).length + n := by
  induction fuel with
  | zero => intro n hn; omega
  | succ fuel ih =>
    intro n hn acc
    by_cases h : n < 10
    · simp [natDigitsAux, h, valAcc]
    · have hdiv : n / 10 < fuel := by
        have h1 : n / 10 < n := Nat.div_lt_self (by omega) (by omega)
        omega
      simp only [natDigitsAux, if_neg h, valAcc_append, List.length_append,
        List.length_singleton]
      rw [ih (n / 10) hdiv acc]
      simp only [valAcc]
      have hmod : ((n % 10 + 48 : Nat) : Int) - 48 = (n : Int) - ((n / 10 : Nat) : Int) * 10 := by
        push_cast
        omega
      rw [pow_succ, hmod]
      ring

theorem natToDigits_digits (n : Nat) : ∀ b ∈ natToDigits n, 48 ≤ b ∧ b ≤ 57 :=
  natDigitsAux_digits (n + 1) n

theorem natToDigits_ne_nil (n : Nat) : natToDigits n ≠ [] :=
  natDigitsAux_ne_nil (n + 1) n (by omega)

theorem valAcc_natToDigits (n : Nat) : valAcc 0 (natToDigits n) = n := by
  have := valAcc_natDigitsAux (n + 1) n (by omega) 0
  simpa [natToDigits] using this

theorem bytesLt_irrefl (a : List Nat) : bytesLt a a = false := by
  induction a with
  | nil => rfl
  | cons x xs ih => simp [bytesLt, ih]

theorem bytesLt_ne {a b : List Nat} (h : bytesLt a b = true) : a ≠ b := by
  intro heq
  rw [heq, bytesLt_irrefl] at h
  exact Bool.false_ne_true h

theorem bytesLt_asymm (a : List Nat) :
    ∀ b, bytesLt a b = true → bytesLt b a = false := by
  induction a with
  | nil => intro b _; cases b <;> rfl
  | cons x xs ih =>
    intro b hab
    cases b with
    | nil => simp [bytesLt] at hab
    | cons y ys =>
      simp only [bytesLt, Bool.or_eq_true, Bool.and_eq_true, decide_eq_true_eq,
        beq_iff_eq] at hab ⊢
      simp only [Bool.or_eq_false_iff, Bool.and_eq_false_iff, decide_eq_false_iff_not,
        not_lt]
      rcases hab with h | ⟨hxy, hr⟩
      · constructor
        · omega
        · left; simp only [beq_eq_false_iff_ne, ne_eq]; omega
      · subst hxy
        refine ⟨le_refl x, Or.inr ?_⟩
        exact ih ys hr

theorem bytesLt_total (a : List Nat) :
    ∀ b, bytesLt a b = false → a ≠ b → bytesLt b a = true := by
  induction a with
  | nil => intro b hab hne; cases b with
    | nil => exact absurd rfl hne
    | cons y ys => simp [bytesLt] at hab
  | cons x xs ih =>
    intro b hab hne
    cases b with
    | nil => rfl
    | cons y ys =>
      simp only [bytesLt, Bool.or_eq_false_iff, Bool.and_eq_false_iff,
        decide_eq_false_iff_not, not_lt, beq_eq_false_iff_ne, ne_eq] at hab
      simp only [bytesLt, Bool.or_eq_true, Bool.and_eq_true, decide_eq_true_eq,
        beq_iff_eq]
      obtain ⟨hyx, hrest⟩ := hab
      rcases Nat.lt_or_ge y x with hlt | hge
      · exact Or.inl hlt
      · have hxy : x = y := by omega
        subst hxy
        rcases hrest with h | h
        · exact absurd rfl h
        · refine Or.inr ⟨rfl, ih ys h ?_⟩
          intro hxs
          exact hne (by rw [hxs])

theorem bytesLt_trans (a : List Nat) :
    ∀ b c, bytesLt a b = true → bytesLt b c = true → bytesLt a c = true := by
  induction a with
  | nil =>
    intro b c hab hbc
    cases b with
    | nil => simp [bytesLt] at hab
    | cons y ys =>
      cases c with
      | nil => simp [bytesLt] at hbc
      | cons z zs => rfl
  | cons x xs ih =>
    intro b c hab hbc
    cases b with
    | nil => simp [bytesLt] at hab
    | cons y ys =>
      cases c with
      | nil => simp [bytesLt] at hbc
      | cons z zs =>
        simp only [bytesLt, Bool.or_eq_true, Bool.and_eq_true, decide_eq_true_eq,
          beq_iff_eq] at hab hbc ⊢
        rcases hab with h1 | ⟨h1, hr1⟩
        · rcases hbc with h2 | ⟨h2, _⟩
          · exact Or.inl (by omega)
          · exact Or.inl (by omega)
        · subst h1
          rcases hbc with h2 | ⟨h2, hr2⟩
          · exact Or.inl h2
          · exact Or.inr ⟨h2, ih ys zs hr1 hr2⟩

/-- The key-ordering relation on dictionary pairs. -/
def pairLt (p q : List Nat × Bencode) : Prop := bytesLt p.1 q.1 = true

theorem sortedKeys_iff_pairwise (m : List (List Nat × Bencode)) :
    sortedKeys m = true ↔ m.Pairwise pairLt := by
  induction m with
  | nil => simp [sortedKeys]
  | cons p rest ih =>
    cases rest with
    | nil => simp [sortedKeys]
    | cons q rest' =>
      obtain ⟨k1, v1⟩ := p
      obtain ⟨k2, v2⟩ := q
      rw [sortedKeys, Bool.and_eq_true, ih]
      constructor
      · rintro ⟨hlt, hp⟩
        rw [List.pairwise_cons]
        refine ⟨?_, hp⟩
        intro x hx
        rcases List.mem_cons.mp hx with hx | hx
        · subst hx; exact hlt
        · exact bytesLt_trans k1 k2 x.1 hlt ((List.pairwise_cons.mp hp).1 x hx)
      · intro h
        rw [List.pairwise_cons] at h
        exact ⟨h.1 (k2, v2) (List.mem_cons_self _ _), h.2⟩

theorem mapInsert_mem {x : List Nat × Bencode} (key : List Nat) (value : Bencode)
    (m : List (List Nat × Bencode)) (hx : x ∈ mapInsert key value m) :
    x = (key, value) ∨ x ∈ m := by
  induction m with
  | nil => simpa [mapInsert] using hx
  | cons p rest ih =>
    obtain ⟨k, v⟩ := p
    by_cases h1 : bytesLt key k = true
    · simp only [mapInsert, if_pos h1] at hx
      rcases List.mem_cons.mp hx with h | h
      · exact Or.inl h
      · exact Or.inr h
    · by_cases h2 : key = k
      · simp only [mapInsert, if_neg h1, if_pos h2] at hx
        rcases List.mem_cons.mp hx with h | h
        · exact Or.inl h
        · exact Or.inr (List.mem_cons_of_mem _ h)
      · simp only [mapInsert, if_neg h1, if_neg h2] at hx
        rcases List.mem_cons.mp hx with h | h
        · exact Or.inr (by simp [h])
        · rcases ih h with h' | h'
          · exact Or.inl h'
          · exact Or.inr (List.mem_cons_of_mem _ h')

theorem mapInsert_pairwise (key : List Nat) (value : Bencode)
    (m : List (List Nat × Bencode)) (hm : m.Pairwise pairLt) :
    (mapInsert key value m).Pairwise pairLt := by
  induction m with
  | nil => simp [mapInsert, List.pairwise_cons]
  | cons p rest ih =>
    obtain ⟨k, v⟩ := p
    rw [List.pairwise_cons] at hm
    obtain ⟨hhead, htail⟩ := hm
    by_cases h1 : bytesLt key k = true
    · rw [mapInsert, if_pos h1, List.pairwise_cons]
      refine ⟨?_, List.pairwise_cons.mpr ⟨hhead, htail⟩⟩
      intro x hx
      rcases List.mem_cons.mp hx with hx | hx
      · subst hx; exact h1
      · exact bytesLt_trans key k x.1 h1 (hhead x hx)
    · by_cases h2 : key = k
      · rw [mapInsert, if_neg h1, if_pos h2, List.pairwise_cons]
        subst h2
        exact ⟨hhead, htail⟩
      · rw [mapInsert, if_neg h1, if_neg h2, List.pairwise_cons]
        refine ⟨?_, ih htail⟩
        intro x hx
        rcases mapInsert_mem key value rest hx with hx' | hx'
        · subst hx'
          exact bytesLt_total key k (by simpa using h1) h2
        · exact hhead x hx'

theorem mapInsert_append (key : List Nat) (value : Bencode)
    (m : List (List Nat × Bencode)) (h : ∀ p ∈ m, bytesLt p.1 key = true) :
    mapInsert key value m = m ++ [(key, value)] := by
  induction m with
  | nil => rfl
  | cons p rest ih =>
    obtain ⟨k, v⟩ := p
    have hk : bytesLt k key = true := h (k, v) (List.mem_cons_self _ _)
    have h1 : ¬ bytesLt key k = true := by
      rw [bytesLt_asymm k key hk]; simp
    have h2 : key ≠ k := fun he => bytesLt_ne hk he.symm
    rw [mapInsert, if_neg h1, if_neg h2, List.cons_append]
    rw [ih (fun p hp => h p (List.mem_cons_of_mem _ hp))]

/-- The map obtained by inserting the given pairs, in order, into an
empty `BTreeMap` (`BTreeMap::from` / repeated `insert`). -/
def buildMap (pairs : List (List Nat × Bencode)) : List (List Nat × Bencode) :=
  pairs.foldl (fun m p => mapInsert p.1 p.2 m) []

theorem buildMap_pairwise (pairs : List (List Nat × Bencode)) :
    (buildMap pairs).Pairwise pairLt := by
  have h : ∀ m : List (List Nat × Bencode), m.Pairwise pairLt →
      (pairs.foldl (fun m p => mapInsert p.1 p.2 m) m).Pairwise pairLt := by
    induction pairs with
    | nil => intro m hm; exact hm
    | cons p rest ih =>
      intro m hm
      exact ih (mapInsert p.1 p.2 m) (mapInsert_pairwise p.1 p.2 m hm)
  exact h [] (List.Pairwise.nil)

theorem decode_number_loop_spec (digits : List Nat) :
    ∀ fuel acc c tail stop rest,
    c :: tail = digits ++ stop :: rest →
    (∀ b ∈ digits, 48 ≤ b ∧ b ≤ 57) →
    ¬(48 ≤ stop ∧ stop ≤ 57) →
    0 ≤ acc →
    valAcc acc digits ≤ i64Max →
    digits.length < fuel →
    decode_number_loop fuel acc ⟨tail, c⟩ =
      (.ok (valAcc acc digits), ⟨rest, stop⟩) := by
  induction digits with
  | nil =>
    intro fuel acc c tail stop rest heq hds hstop hacc hmax hfuel
    cases fuel with
    | zero => omega
    | succ fuel =>
      rw [List.nil_append] at heq
      injection heq with h1 h2
      subst h1; subst h2
      simp [decode_number_loop, decode_digit, hstop, valAcc]
  | cons g gs ih =>
    intro fuel acc c tail stop rest heq hds hstop hacc hmax hfuel
    cases fuel with
    | zero => simp at hfuel
    | succ fuel =>
      rw [List.cons_append] at heq
      injection heq with h1 h2
      subst h2
      rw [h1]
      have hg := hds g (List.mem_cons_self _ _)
      have hg' : (48 : Int) ≤ (g : Int) ∧ (g : Int) ≤ 57 := by
        constructor <;> [exact_mod_cast hg.1; exact_mod_cast hg.2]
      have hgs : ∀ b ∈ gs, 48 ≤ b ∧ b ≤ 57 :=
        fun b hb => hds b (List.mem_cons_of_mem _ hb)
      have hacc' : (0 : Int) ≤ acc * 10 + ((g : Int) - 48) := by nlinarith
      have hval : valAcc acc (g :: gs) = valAcc (acc * 10 + ((g : Int) - 48)) gs := rfl
      have hup : acc * 10 + ((g : Int) - 48) ≤ i64Max := by
        have := valAcc_ge gs (acc * 10 + ((g : Int) - 48))
          (fun b hb => (hgs b hb).1) hacc'
        rw [hval] at hmax
        omega
      have hmul : i64Min ≤ acc * 10 ∧ acc * 10 ≤ i64Max := by
        constructor
        · have : (0 : Int) ≤ acc * 10 := by positivity
          simp only [i64Min]; omega
        · omega
      have hadd : i64Min ≤ acc * 10 + ((g : Int) - 48) ∧
          acc * 10 + ((g : Int) - 48) ≤ i64Max := by
        constructor
        · simp only [i64Min]; omega
        · exact hup
      have e1 : decode_digit g = some ((g : Int) - 48) := by
        simp [decode_digit, hg.1, hg.2]
      have e2 : checked_mul acc 10 = some (acc * 10) := by
        simp [checked_mul, hmul.1, hmul.2]
      have e3 : checked_add (acc * 10) ((g : Int) - 48) =
          some (acc * 10 + ((g : Int) - 48)) := by
        simp [checked_add, hadd.1, hadd.2]
      rw [decode_number_loop]
      simp only [e1, e2, e3]
      cases ht : gs ++ stop :: rest with
      | nil => exact absurd ht (by simp)
      | cons t0 ts =>
        rw [show advance ⟨t0 :: ts, g⟩ = (.ok t0, ⟨ts, t0⟩) from rfl]
        rw [hval]
        exact ih fuel (acc * 10 + ((g : Int) - 48)) t0 ts stop rest
          (by rw [ht]) hgs hstop hacc' (hval ▸ hmax) (by simpa using hfuel)

theorem natToDigits_length_pos (n : Nat) : 1 ≤ (natToDigits n).length :=
  List.length_pos.mpr (natToDigits_ne_nil n)

theorem intToDecimal_ne_nil (n : Int) : intToDecimal n ≠ [] := by
  rw [intToDecimal]
  split
  · simp
  · exact natToDigits_ne_nil _

theorem fuelItems_ge (l : List Bencode) : 2 ≤ fuelItems l := by
  cases l <;> simp [fuelItems]

theorem fuelPairs_ge (m : List (List Nat × Bencode)) : 2 ≤ fuelPairs m := by
  cases m with
  | nil => simp [fuelPairs]
  | cons p rest => obtain ⟨k, v⟩ := p; simp [fuelPairs]

theorem fuelCur_ge (v : Bencode) : 4 ≤ fuelCur v := by
  cases v with
  | integer n => simp [fuelCur]
  | string bs => simp [fuelCur]
  | list l => have := fuelItems_ge l; simp [fuelCur]; omega
  | dictionary m => have := fuelPairs_ge m; simp [fuelCur]; omega

theorem decode_integer_spec (n : Int) (hmin : i64Min < n) (hmax : n ≤ i64Max)
    (rest : List Nat) (fuel : Nat) (hf : (intToDecimal n).length + 3 ≤ fuel)
    (cur : Nat) :
    decode_integer fuel ⟨intToDecimal n ++ 101 :: rest, cur⟩ =
      (.ok (.integer n), ⟨rest, 101⟩) := by
  cases fuel with
  | zero => omega
  | succ fuel =>
    by_cases hn : n < 0
    · have hdec : intToDecimal n = 45 :: natToDigits (-n).toNat := by
        rw [intToDecimal, if_pos hn]
      cases hds : natToDigits (-n).toNat with
      | nil => exact absurd hds (natToDigits_ne_nil _)
      | cons d0 ds' =>
        have hd0 : 48 ≤ d0 ∧ d0 ≤ 57 :=
          natToDigits_digits (-n).toNat d0 (by rw [hds]; exact List.mem_cons_self _ _)
        rw [hdec, hds]
        rw [decode_integer]
        have e1 : advance ⟨45 :: d0 :: (ds' ++ 101 :: rest), cur⟩ =
          (.ok 45, ⟨d0 :: (ds' ++ 101 :: rest), 45⟩) := rfl
        have e2 : decode_integer_sign ⟨d0 :: (ds' ++ 101 :: rest), 45⟩ =
            (.ok (-1), ⟨ds' ++ 101 :: rest, d0⟩) := by
          simp [decode_integer_sign, advance]
        have hloop := decode_number_loop_spec (d0 :: ds') fuel 0 d0
          (ds' ++ 101 :: rest) 101 rest (by simp)
          (by rw [← hds]; exact natToDigits_digits _) (by omega) (by omega)
          (by rw [← hds, valAcc_natToDigits]
              simp only [i64Max, i64Min] at hmax hmin ⊢
              omega)
          (by have := hf; rw [hdec, hds] at this; simp at this ⊢; omega)
        have e4 : expect ⟨rest, 101⟩ 101 .NAN = .ok () := rfl
        have hval : valAcc 0 (d0 :: ds') = -n := by
          rw [← hds, valAcc_natToDigits]
          omega
        simp [e1, e2, hloop, e4, hval]
    · have hn' : 0 ≤ n := by omega
      have hdec : intToDecimal n = natToDigits n.toNat := by
        rw [intToDecimal, if_neg hn]
      cases hds : natToDigits n.toNat with
      | nil => exact absurd hds (natToDigits_ne_nil _)
      | cons d0 ds' =>
        have hd0 : 48 ≤ d0 ∧ d0 ≤ 57 :=
          natToDigits_digits n.toNat d0 (by rw [hds]; exact List.mem_cons_self _ _)
        rw [hdec, hds]
        rw [decode_integer]
        have e1 : advance ⟨d0 :: (ds' ++ 101 :: rest), cur⟩ =
          (.ok d0, ⟨ds' ++ 101 :: rest, d0⟩) := rfl
        have hne101 : ¬ d0 = 101 := by omega
        have hne45 : ¬ d0 = 45 := by omega
        have e2 : decode_integer_sign ⟨ds' ++ 101 :: rest, d0⟩ =
            (.ok 1, ⟨ds' ++ 101 :: rest, d0⟩) := by
          simp [decode_integer_sign, hne45]
        have hloop := decode_number_loop_spec (d0 :: ds') fuel 0 d0
          (ds' ++ 101 :: rest) 101 rest (by simp)
          (by rw [← hds]; exact natToDigits_digits _) (by omega) (by omega)
          (by rw [← hds, valAcc_natToDigits]
              simp only [i64Max] at hmax ⊢
              omega)
          (by have := hf; rw [hdec, hds] at this; simp at this ⊢; omega)
        have e4 : expect ⟨rest, 101⟩ 101 .NAN = .ok () := rfl
        have hval : valAcc 0 (d0 :: ds') = n := by
          rw [← hds, valAcc_natToDigits]
          omega
        simp [e1, hne101, e2, hloop, e4, hval]

theorem decode_string_general (ds bs rest : List Nat) (fuel : Nat)
    (hds : ∀ b ∈ ds, 48 ≤ b ∧ b ≤ 57)
    (hval : valAcc 0 ds ≤ i64Max) (hlen : (valAcc 0 ds).toNat = bs.length)
    (hf : ds.length + 2 ≤ fuel) (d0 : Nat) (ds' : List Nat)
    (heq : ds = d0 :: ds') :
    decode_string fuel ⟨ds' ++ 58 :: (bs ++ rest), d0⟩ =
      (.ok (.string bs), ⟨rest, 58⟩) := by
  cases fuel with
  | zero => omega
  | succ fuel =>
    rw [decode_string]
    have hloop := decode_number_loop_spec ds fuel 0 d0
      (ds' ++ 58 :: (bs ++ rest)) 58 (bs ++ rest)
      (by rw [heq]; simp) hds (by omega) (by omega) hval
      (by omega)
    have e4 : expect ⟨bs ++ rest, 58⟩ 58 .NAN = .ok () := rfl
    have e5 : read_bytes ⟨bs ++ rest, 58⟩ (valAcc 0 ds).toNat =
        (.ok bs, ⟨rest, 58⟩) := by
      rw [read_bytes, hlen]
      rw [if_pos (by simp)]
      rw [List.take_left, List.drop_left]
    simp only [hloop, e4, e5]

theorem decode_current_eq (fuel : Nat) (inp : List Nat) (c : Nat) :
    decode_current (fuel + 1) ⟨inp, c⟩ =
      if c = 105 then decode_integer fuel ⟨inp, c⟩
      else if 48 ≤ c ∧ c ≤ 57 then decode_string fuel ⟨inp, c⟩
      else if c = 108 then decode_list fuel ⟨inp, c⟩
      else if c = 100 then decode_dictionary fuel ⟨inp, c⟩
      else (.panicked, ⟨inp, c⟩) := rfl

theorem decode_current_string (bs : List Nat)
    (hlen : (bs.length : Int) ≤ i64Max) (rest : List Nat) (fuel : Nat)
    (hf : (natToDigits bs.length).length + 3 ≤ fuel) (c : Nat) (t : List Nat)
    (henc : encode_string bs = c :: t) :
    decode_current fuel ⟨t ++ rest, c⟩ = (.ok (.string bs), ⟨rest, 58⟩) := by
  cases fuel with
  | zero => omega
  | succ fuel =>
    cases hds : natToDigits bs.length with
    | nil => exact absurd hds (natToDigits_ne_nil _)
    | cons d0 ds' =>
      rw [encode_string, hds, List.cons_append] at henc
      injection henc with h1 h2
      subst h2
      rw [← h1]
      have hd0 : 48 ≤ d0 ∧ d0 ≤ 57 :=
        natToDigits_digits bs.length d0 (by rw [hds]; exact List.mem_cons_self _ _)
      rw [decode_current_eq]
      rw [if_neg (by omega : ¬d0 = 105)]
      rw [if_pos hd0]
      rw [show ((ds' ++ 58 :: bs) ++ rest : List Nat) = ds' ++ 58 :: (bs ++ rest) by
        simp]
      exact decode_string_general (natToDigits bs.length) bs rest fuel
        (natToDigits_digits _)
        (by rw [valAcc_natToDigits]; exact hlen)
        (by rw [valAcc_natToDigits]; simp)
        (by rw [hds] at hf ⊢; simp at hf ⊢; omega) d0 ds' hds

/-- The first byte of an encoded value is never the terminator `e`. -/
theorem encode_head_ne (v : Bencode) :
    ∃ c t, encode v = c :: t ∧ c ≠ 101 := by
  cases v with
  | integer n =>
    exact ⟨105, intToDecimal n ++ [101],
      by rw [encode, encode_number, List.cons_append], by omega⟩
  | string bs =>
    cases hds : natToDigits bs.length with
    | nil => exact absurd hds (natToDigits_ne_nil _)
    | cons d0 ds' =>
      have hd0 : 48 ≤ d0 ∧ d0 ≤ 57 :=
        natToDigits_digits bs.length d0 (by rw [hds]; exact List.mem_cons_self _ _)
      exact ⟨d0, ds' ++ 58 :: bs,
        by rw [encode, encode_string, hds, List.cons_append], by omega⟩
  | list l =>
    exact ⟨108, encode_items l ++ [101], by rw [encode, List.cons_append], by omega⟩
  | dictionary m =>
    exact ⟨100, encode_pairs m ++ [101], by rw [encode, List.cons_append], by omega⟩

/-- `decode_current`, run on the encoding of `v` followed by `rest`
(with the first encoded byte already in `current`), returns `v` and
stops exactly at `rest`. -/
def DecodesEncoding (v : Bencode) : Prop :=
  ∀ c t rest fuel, encode v = c :: t → fuelCur v ≤ fuel →
    decode_current fuel ⟨t ++ rest, c⟩ = (.ok v, ⟨rest, finalCur v⟩)

theorem decode_list_loop_spec (l : List Bencode)
    (hmem : ∀ x ∈ l, wf x = true → DecodesEncoding x) :
    ∀ fuel acc cur rest, fuelItems l ≤ fuel → wfItems l = true →
    decode_list_loop fuel acc ⟨encode_items l ++ 101 :: rest, cur⟩ =
      (.ok (.list (acc ++ l)), ⟨rest, 101⟩) := by
  induction l with
  | nil =>
    intro fuel acc cur rest hf hwf
    cases fuel with
    | zero => simp [fuelItems] at hf
    | succ fuel =>
      rw [decode_list_loop]
      simp [encode_items, advance]
  | cons x xs ih =>
    intro fuel acc cur rest hf hwf
    rw [fuelItems] at hf
    cases fuel with
    | zero => omega
    | succ fuel =>
      obtain ⟨cx, tx, hx, hcx⟩ := encode_head_ne x
      rw [wfItems, Bool.and_eq_true] at hwf
      have hdec := hmem x (List.mem_cons_self _ _) hwf.1 cx tx
        (encode_items xs ++ 101 :: rest) fuel hx (by omega)
      rw [show (encode_items (x :: xs) ++ 101 :: rest : List Nat)
          = cx :: (tx ++ (encode_items xs ++ 101 :: rest)) from by
        rw [encode_items, hx]; simp]
      rw [decode_list_loop]
      have e1 : advance ⟨cx :: (tx ++ (encode_items xs ++ 101 :: rest)), cur⟩ =
        (.ok cx, ⟨tx ++ (encode_items xs ++ 101 :: rest), cx⟩) := rfl
      have hr := ih (fun y hy => hmem y (List.mem_cons_of_mem _ hy)) fuel
        (acc ++ [x]) (finalCur x) rest (by omega) hwf.2
      simp only [e1]
      rw [if_neg hcx]
      simp only [hdec, hr]
      simp

theorem decode_dict_loop_spec (m : List (List Nat × Bencode))
    (hmem : ∀ p ∈ m, wf p.2 = true → DecodesEncoding p.2) :
    ∀ fuel acc cur rest, fuelPairs m ≤ fuel → wfPairs m = true →
    sortedKeys (acc ++ m) = true →
    decode_dict_loop fuel acc ⟨encode_pairs m ++ 101 :: rest, cur⟩ =
      (.ok (.dictionary (acc ++ m)), ⟨rest, 101⟩) := by
  induction m with
  | nil =>
    intro fuel acc cur rest hf hwf hsort
    cases fuel with
    | zero => simp [fuelPairs] at hf
    | succ fuel =>
      rw [decode_dict_loop]
      simp [encode_pairs, advance]
  | cons p rest' ih =>
    obtain ⟨k, v⟩ := p
    intro fuel acc cur rest hf hwf hsort
    rw [fuelPairs] at hf
    rw [wfPairs] at hwf
    simp only [Bool.and_eq_true, decide_eq_true_eq] at hwf
    obtain ⟨⟨⟨hutf, hklen⟩, hwfv⟩, hwfrest⟩ := hwf
    have hvge := fuelCur_ge v
    have hrge := fuelPairs_ge rest'
    have hkge := natToDigits_length_pos k.length
    cases fuel with
    | zero => omega
    | succ fuel =>
      cases hds : natToDigits k.length with
      | nil => exact absurd hds (natToDigits_ne_nil _)
      | cons d0 ds' =>
        have hd0 : 48 ≤ d0 ∧ d0 ≤ 57 :=
          natToDigits_digits k.length d0 (by rw [hds]; exact List.mem_cons_self _ _)
        rw [show (encode_pairs ((k, v) :: rest') ++ 101 :: rest : List Nat)
            = d0 :: ((ds' ++ 58 :: k) ++
                (encode v ++ (encode_pairs rest' ++ 101 :: rest))) from by
          rw [encode_pairs, encode_string, hds]; simp]
        rw [decode_dict_loop]
        have e1 : advance ⟨d0 :: ((ds' ++ 58 :: k) ++
            (encode v ++ (encode_pairs rest' ++ 101 :: rest))), cur⟩ =
          (.ok d0, ⟨(ds' ++ 58 :: k) ++
            (encode v ++ (encode_pairs rest' ++ 101 :: rest)), d0⟩) := rfl
        have hkey := decode_current_string k hklen
          (encode v ++ (encode_pairs rest' ++ 101 :: rest)) fuel
          (by omega) d0 (ds' ++ 58 :: k)
          (by rw [encode_string, hds]; simp)
        have e3 : from_utf8 k = some k := by simp [from_utf8, hutf]
        obtain ⟨cv, tv, hv, hcv⟩ := encode_head_ne v
        have hmemv : wf v = true → DecodesEncoding v :=
          hmem (k, v) (List.mem_cons_self _ _)
        have hvdec := hmemv hwfv cv tv
          (encode_pairs rest' ++ 101 :: rest) (fuel - 1) hv (by omega)
        have e5 : decode fuel ⟨encode v ++ (encode_pairs rest' ++ 101 :: rest), 58⟩ =
            (.ok v, ⟨encode_pairs rest' ++ 101 :: rest, finalCur v⟩) := by
          cases fuel with
          | zero => omega
          | succ fuel2 =>
            rw [decode]
            rw [show (encode v ++ (encode_pairs rest' ++ 101 :: rest) : List Nat)
                = cv :: (tv ++ (encode_pairs rest' ++ 101 :: rest)) from by
              rw [hv]; simp]
            have e6 : advance ⟨cv :: (tv ++ (encode_pairs rest' ++ 101 :: rest)), 58⟩ =
              (.ok cv, ⟨tv ++ (encode_pairs rest' ++ 101 :: rest), cv⟩) := rfl
            simp only [e6]
            simpa using hvdec
        have hpw := (sortedKeys_iff_pairwise _).mp hsort
        rw [List.pairwise_append] at hpw
        have hlt : ∀ p ∈ acc, bytesLt p.1 k = true := fun p hp =>
          hpw.2.2 p hp (k, v) (List.mem_cons_self _ _)
        have hins : mapInsert k v acc = acc ++ [(k, v)] :=
          mapInsert_append k v acc hlt
        have hrec := ih (fun q hq hwq => hmem q (List.mem_cons_of_mem _ hq) hwq)
          fuel (acc ++ [(k, v)]) (finalCur v) rest (by omega) hwfrest
          (by rw [show ((acc ++ [(k, v)]) ++ rest' : List (List Nat × Bencode))
                = acc ++ (k, v) :: rest' from by simp]
              exact hsort)
        simp only [e1]
        rw [if_neg (by omega : ¬d0 = 101)]
        simp only [hkey, e3, e5, hins, hrec]
        simp

theorem sizeOf_snd_lt {p : List Nat × Bencode} {m : List (List Nat × Bencode)}
    (hp : p ∈ m) : sizeOf p.2 < sizeOf m := by
  have h1 := List.sizeOf_lt_of_mem hp
  obtain ⟨a, b⟩ := p
  simp at h1 ⊢
  omega

theorem decode_current_encode_aux (N : Nat) :
    ∀ v : Bencode, sizeOf v ≤ N → wf v = true → DecodesEncoding v := by
  induction N with
  | zero =>
    intro v hs
    exfalso
    cases v <;> simp at hs
  | succ N IH =>
    intro v hs hwf c t rest fuel henc hfuel
    cases v with
    | integer n =>
      rw [encode, encode_number, List.cons_append] at henc
      injection henc with h1 h2
      subst h2
      rw [← h1]
      rw [wf, Bool.and_eq_true, decide_eq_true_eq, decide_eq_true_eq] at hwf
      rw [fuelCur] at hfuel
      cases fuel with
      | zero => omega
      | succ fuel =>
        rw [decode_current_eq, if_pos rfl]
        rw [show ((intToDecimal n ++ [101]) ++ rest : List Nat)
            = intToDecimal n ++ 101 :: rest from by simp]
        exact decode_integer_spec n hwf.1 hwf.2 rest fuel (by omega) 105
    | string bs =>
      rw [wf, decide_eq_true_eq] at hwf
      rw [fuelCur] at hfuel
      rw [encode] at henc
      exact decode_current_string bs hwf rest fuel (by omega) c t henc
    | list l =>
      rw [encode, List.cons_append] at henc
      injection henc with h1 h2
      subst h2
      rw [← h1]
      rw [wf] at hwf
      rw [fuelCur] at hfuel
      have hge := fuelItems_ge l
      cases fuel with
      | zero => omega
      | succ fuel =>
        rw [decode_current_eq]
        rw [if_neg (by omega : ¬(108 : Nat) = 105)]
        rw [if_neg (by omega : ¬(48 ≤ (108 : Nat) ∧ (108 : Nat) ≤ 57))]
        rw [if_pos rfl]
        cases fuel with
        | zero => omega
        | succ fuel2 =>
          rw [decode_list]
          rw [show ((encode_items l ++ [101]) ++ rest : List Nat)
              = encode_items l ++ 101 :: rest from by simp]
          have hmem : ∀ x ∈ l, wf x = true → DecodesEncoding x := by
            intro x hx hwx
            apply IH x _ hwx
            have h1 := List.sizeOf_lt_of_mem hx
            have h2 : sizeOf (Bencode.list l) = 1 + sizeOf l := by simp
            omega
          have := decode_list_loop_spec l hmem fuel2 [] 108 rest (by omega) hwf
          simpa [finalCur] using this
    | dictionary m =>
      rw [encode, List.cons_append] at henc
      injection henc with h1 h2
      subst h2
      rw [← h1]
      rw [wf, Bool.and_eq_true] at hwf
      rw [fuelCur] at hfuel
      have hge := fuelPairs_ge m
      cases fuel with
      | zero => omega
      | succ fuel =>
        rw [decode_current_eq]
        rw [if_neg (by omega : ¬(100 : Nat) = 105)]
        rw [if_neg (by omega : ¬(48 ≤ (100 : Nat) ∧ (100 : Nat) ≤ 57))]
        rw [if_neg (by omega : ¬(100 : Nat) = 108)]
        rw [if_pos rfl]
        cases fuel with
        | zero => omega
        | succ fuel2 =>
          rw [decode_dictionary]
          rw [show ((encode_pairs m ++ [101]) ++ rest : List Nat)
              = encode_pairs m ++ 101 :: rest from by simp]
          have hmem : ∀ p ∈ m, wf p.2 = true → DecodesEncoding p.2 := by
            intro p hp hwp
            apply IH p.2 _ hwp
            have h1 := sizeOf_snd_lt hp
            have h2 : sizeOf (Bencode.dictionary m) = 1 + sizeOf m := by simp
            omega
          have := decode_dict_loop_spec m hmem fuel2 [] 100 rest (by omega)
            hwf.2 (by simpa using hwf.1)
          simpa [finalCur] using this

/-- Decoding the encoding of any well-formed value, followed by any
trailing bytes, yields the value back and stops exactly at the trailing
bytes. -/
theorem decode_encode_spec (v : Bencode) (hwf : wf v = true) (fuel : Nat)
    (hf : fuelCur v + 1 ≤ fuel) (rest : List Nat) (cur : Nat) :
    decode fuel ⟨encode v ++ rest, cur⟩ = (.ok v, ⟨rest, finalCur v⟩) := by
  cases fuel with
  | zero => have := fuelCur_ge v; omega
  | succ fuel =>
    obtain ⟨c, t, hc, _⟩ := encode_head_ne v
    rw [decode]
    rw [show (encode v ++ rest : List Nat) = c :: (t ++ rest) from by rw [hc]; simp]
    have e1 : advance ⟨c :: (t ++ rest), cur⟩ = (.ok c, ⟨t ++ rest, c⟩) := rfl
    simp only [e1]
    exact decode_current_encode_aux (sizeOf v) v (le_refl _) hwf c t rest fuel hc
      (by omega)

theorem advance_error {d : Decoder} {e : DecoderError} {d' : Decoder}
    (h : advance d = (.error e, d')) : e = .EOF := by
  cases hin : d.input with
  | nil =>
    rw [advance, hin] at h
    injection h with h1 h2
    injection h1 with h3
    exact h3.symm
  | cons b rest =>
    rw [advance, hin] at h
    exact absurd h (by simp)

theorem expect_error {d : Decoder} {x : Nat} {er e : DecoderError}
    (h : expect d x er = .error e) : e = er := by
  rw [expect] at h
  split at h
  · exact absurd h (by simp)
  · injection h with h1
    exact h1.symm

theorem read_bytes_error {d : Decoder} {n : Nat} {e : DecoderError} {d' : Decoder}
    (h : read_bytes d n = (.error e, d')) : e = .EOF := by
  rw [read_bytes] at h
  split at h
  · exact absurd h (by simp)
  · injection h with h1 h2
    injection h1 with h3
    exact h3.symm

theorem decode_integer_sign_error {d d' : Decoder} {e : DecoderError}
    (h : decode_integer_sign d = (.error e, d')) : e = .EOF := by
  rw [decode_integer_sign] at h
  split at h
  · rcases ha : advance d with ⟨r, d''⟩
    rw [ha] at h
    cases r with
    | error e' =>
      injection h with h1 h2
      injection h1 with h3
      rw [← h3]
      exact advance_error ha
    | ok b => exact absurd h (by simp)
  · exact absurd h (by simp)

theorem decode_number_loop_ne (fuel : Nat) :
    ∀ acc d, (decode_number_loop fuel acc d).1 ≠ .err .DictionaryEmptyKey := by
  induction fuel with
  | zero => intro acc d; simp [decode_number_loop]
  | succ fuel ih =>
    intro acc d
    rw [decode_number_loop]
    cases hd : decode_digit d.current with
    | none => simp [hd]
    | some digit =>
      cases hm : checked_mul acc 10 with
      | none => simp [hd, hm]
      | some m =>
        cases ha : checked_add m digit with
        | none => simp [hd, hm, ha]
        | some number' =>
          rcases hv : advance d with ⟨r, d'⟩
          cases r with
          | error e =>
            have he := advance_error hv
            subst he
            simp [hd, hm, ha, hv]
          | ok b =>
            simp only [hd, hm, ha, hv]
            exact ih _ _

/-- No decoder routine ever produces the `DictionaryEmptyKey` error:
the variant exists in `DecoderError` but is never constructed. -/
theorem never_empty_key (fuel : Nat) :
    (∀ d, (decode fuel d).1 ≠ .err .DictionaryEmptyKey) ∧
    (∀ d, (decode_current fuel d).1 ≠ .err .DictionaryEmptyKey) ∧
    (∀ d, (decode_integer fuel d).1 ≠ .err .DictionaryEmptyKey) ∧
    (∀ d, (decode_string fuel d).1 ≠ .err .DictionaryEmptyKey) ∧
    (∀ d, (decode_list fuel d).1 ≠ .err .DictionaryEmptyKey) ∧
    (∀ items d, (decode_list_loop fuel items d).1 ≠ .err .DictionaryEmptyKey) ∧
    (∀ d, (decode_dictionary fuel d).1 ≠ .err .DictionaryEmptyKey) ∧
    (∀ map d, (decode_dict_loop fuel map d).1 ≠ .err .DictionaryEmptyKey) := by
  induction fuel with
  | zero =>
    refine ⟨fun d => ?_, fun d => ?_, fun d => ?_, fun d => ?_, fun d => ?_,
      fun items d => ?_, fun d => ?_, fun map d => ?_⟩ <;>
      simp [decode, decode_current, decode_integer, decode_string, decode_list,
        decode_list_loop, decode_dictionary, decode_dict_loop]
  | succ fuel ih =>
    obtain ⟨ih1, ih2, ih3, ih4, ih5, ih6, ih7, ih8⟩ := ih
    refine ⟨?_, ?_, ?_, ?_, ?_, ?_, ?_, ?_⟩
    · intro d
      rw [decode]
      rcases h : advance d with ⟨r, d'⟩
      cases r with
      | error e => have he := advance_error h; subst he; simp
      | ok b => exact ih2 d'
    · intro d
      rw [decode_current]
      split_ifs
      · exact ih3 _
      · exact ih4 _
      · exact ih5 _
      · exact ih7 _
      · simp
    · intro d
      rw [decode_integer]
      rcases h : advance d with ⟨r, d'⟩
      cases r with
      | error e => have he := advance_error h; subst he; simp
      | ok b =>
        simp only []
        by_cases hb : b = 101
        · simp [hb]
        · rw [if_neg hb]
          rcases h2 : decode_integer_sign d' with ⟨r2, d''⟩
          cases r2 with
          | error e =>
            have he := decode_integer_sign_error h2
            subst he
            simp
          | ok s =>
            simp only []
            rcases h3 : decode_number_loop fuel 0 d'' with ⟨r3, d₃⟩
            cases r3 with
            | ok num =>
              simp only []
              cases h4 : expect d₃ 101 .NAN with
              | error e => have he := expect_error h4; subst he; simp
              | ok u => simp
            | err e =>
              have := decode_number_loop_ne fuel 0 d''
              rw [h3] at this
              simpa using this
            | panicked => simp
            | outOfFuel => simp
    · intro d
      rw [decode_string]
      rcases h : decode_number_loop fuel 0 d with ⟨r, d'⟩
      cases r with
      | ok length =>
        simp only []
        cases h2 : expect d' 58 .NAN with
        | error e => have he := expect_error h2; subst he; simp
        | ok u =>
          simp only []
          rcases h3 : read_bytes d' length.toNat with ⟨r2, d''⟩
          cases r2 with
          | error e => have he := read_bytes_error h3; subst he; simp
          | ok bytes => simp
      | err e =>
        have := decode_number_loop_ne fuel 0 d
        rw [h] at this
        simpa using this
      | panicked => simp
      | outOfFuel => simp
    · intro d
      rw [decode_list]
      exact ih6 [] d
    · intro items d
      rw [decode_list_loop]
      rcases h : advance d with ⟨r, d'⟩
      cases r with
      | error e => have he := advance_error h; subst he; simp
      | ok b =>
        simp only []
        by_cases hb : b = 101
        · simp [hb]
        · rw [if_neg hb]
          rcases h2 : decode_current fuel d' with ⟨r2, d''⟩
          cases r2 with
          | ok item => exact ih6 _ _
          | err e =>
            have := ih2 d'
            rw [h2] at this
            simpa using this
          | panicked => simp
          | outOfFuel => simp
    · intro d
      rw [decode_dictionary]
      exact ih8 [] d
    · intro map d
      rw [decode_dict_loop]
      rcases h : advance d with ⟨r, d'⟩
      cases r with
      | error e => have he := advance_error h; subst he; simp
      | ok b =>
        simp only []
        by_cases hb : b = 101
        · simp [hb]
        · rw [if_neg hb]
          rcases h2 : decode_current fuel d' with ⟨r2, d''⟩
          cases r2 with
          | ok item =>
            cases item with
            | string raw_key =>
              simp only []
              cases hu : from_utf8 raw_key with
              | none => simp
              | some key =>
                simp only []
                rcases h3 : decode fuel d'' with ⟨r3, d₃⟩
                cases r3 with
                | ok value => exact ih8 _ _
                | err e =>
                  have := ih1 d''
                  rw [h3] at this
                  simpa using this
                | panicked => simp
                | outOfFuel => simp
            | integer n => simp
            | list l => simp
            | dictionary mm => simp
          | err e =>
            have := ih2 d'
            rw [h2] at this
            simpa using this
          | panicked => simp
          | outOfFuel => simp

theorem decode_integer_sign_eq (inp : List Nat) (c : Nat) :
    decode_integer_sign ⟨inp, c⟩ =
      if c = 45 then
        match advance ⟨inp, c⟩ with
        | (.ok _, d') => (.ok (-1), d')
        | (.error e, d') => (.error e, d')
      else (.ok 1, ⟨inp, c⟩) := rfl

/-- An integer literal `i`, optional `-`, digit run `ds`, `e`: decoding
succeeds with the signed value of the digits whenever that value fits,
for an arbitrary digit run (leading zeros included). -/
theorem decode_integer_general (neg : Bool) (ds rest : List Nat) (fuel : Nat)
    (hds : ∀ b ∈ ds, 48 ≤ b ∧ b ≤ 57) (hne : ds ≠ [])
    (hval : valAcc 0 ds ≤ i64Max) (hf : ds.length + 4 ≤ fuel) :
    decode fuel
      (mkDecoder ([105] ++ (if neg then [45] else []) ++ (ds ++ 101 :: rest))) =
      (.ok (.integer ((if neg then -1 else 1) * valAcc 0 ds)), ⟨rest, 101⟩) := by
  cases hd : ds with
  | nil => exact absurd hd hne
  | cons d0 ds' =>
    subst hd
    have hd0 := hds d0 (List.mem_cons_self _ _)
    obtain ⟨f1, rfl⟩ : ∃ f, fuel = f + 1 := ⟨fuel - 1, by omega⟩
    obtain ⟨f2, rfl⟩ : ∃ f, f1 = f + 1 := ⟨f1 - 1, by omega⟩
    obtain ⟨f3, rfl⟩ : ∃ f, f2 = f + 1 := ⟨f2 - 1, by omega⟩
    have hloop := decode_number_loop_spec (d0 :: ds') f3 0 d0
      (ds' ++ 101 :: rest) 101 rest (by simp) hds (by omega) (by omega) hval
      (by simp at hf ⊢; omega)
    have e4 : expect ⟨rest, 101⟩ 101 .NAN = .ok () := rfl
    cases neg with
    | false =>
      have hinput : (([105] ++ (if false then [45] else []) ++
          ((d0 :: ds') ++ 101 :: rest)) : List Nat) =
          105 :: d0 :: (ds' ++ 101 :: rest) := by simp
      rw [hinput, mkDecoder, decode]
      have e1 : advance ⟨105 :: d0 :: (ds' ++ 101 :: rest), 0⟩ =
        (.ok 105, ⟨d0 :: (ds' ++ 101 :: rest), 105⟩) := rfl
      simp only [e1]
      rw [decode_current_eq, if_pos rfl, decode_integer]
      have e2 : advance ⟨d0 :: (ds' ++ 101 :: rest), 105⟩ =
        (.ok d0, ⟨ds' ++ 101 :: rest, d0⟩) := rfl
      simp only [e2]
      rw [if_neg (by omega : ¬d0 = 101)]
      have hne45 : ¬ d0 = 45 := by omega
      have e3 : decode_integer_sign ⟨ds' ++ 101 :: rest, d0⟩ =
          (.ok 1, ⟨ds' ++ 101 :: rest, d0⟩) := by
        rw [decode_integer_sign_eq, if_neg hne45]
      simp [e3, hloop, e4]
    | true =>
      have hinput : (([105] ++ (if true then [45] else []) ++
          ((d0 :: ds') ++ 101 :: rest)) : List Nat) =
          105 :: 45 :: d0 :: (ds' ++ 101 :: rest) := by simp
      rw [hinput, mkDecoder, decode]
      have e1 : advance ⟨105 :: 45 :: d0 :: (ds' ++ 101 :: rest), 0⟩ =
        (.ok 105, ⟨45 :: d0 :: (ds' ++ 101 :: rest), 105⟩) := rfl
      simp only [e1]
      rw [decode_current_eq, if_pos rfl, decode_integer]
      have e2 : advance ⟨45 :: d0 :: (ds' ++ 101 :: rest), 105⟩ =
        (.ok 45, ⟨d0 :: (ds' ++ 101 :: rest), 45⟩) := rfl
      simp only [e2]
      rw [if_neg (by omega : ¬(45 : Nat) = 101)]
      have e3 : decode_integer_sign ⟨d0 :: (ds' ++ 101 :: rest), 45⟩ =
          (.ok (-1), ⟨ds' ++ 101 :: rest, d0⟩) := by
        rw [decode_integer_sign_eq, if_pos rfl]; rfl
      simp [e3, hloop, e4]

/-- An integer literal whose digit run is followed by a byte that is
neither a digit nor the terminator `e` fails with `NAN` (the digit run
may be empty; a lone `-` sign consumes the sign and then also reaches
the non-digit byte, or the terminator, without error). -/
theorem decode_integer_nan_general (neg : Bool) (ds : List Nat) (c : Nat)
    (rest : List Nat) (fuel : Nat)
    (hds : ∀ b ∈ ds, 48 ≤ b ∧ b ≤ 57)
    (hc : ¬(48 ≤ c ∧ c ≤ 57)) (hc101 : c ≠ 101)
    (hcm : neg = false → ds = [] → c ≠ 45)
    (hval : valAcc 0 ds ≤ i64Max)
    (hf : ds.length + 4 ≤ fuel) :
    decode fuel
      (mkDecoder ([105] ++ (if neg then [45] else []) ++ (ds ++ c :: rest))) =
      (.err .NAN, ⟨rest, c⟩) := by
  obtain ⟨f1, rfl⟩ : ∃ f, fuel = f + 1 := ⟨fuel - 1, by omega⟩
  obtain ⟨f2, rfl⟩ : ∃ f, f1 = f + 1 := ⟨f1 - 1, by omega⟩
  obtain ⟨f3, rfl⟩ : ∃ f, f2 = f + 1 := ⟨f2 - 1, by omega⟩
  have e5 : expect ⟨rest, c⟩ 101 .NAN = .error .NAN := by
    simp [expect, hc101]
  cases neg with
  | false =>
    cases hd : ds with
    | nil =>
      have hc45 : c ≠ 45 := hcm rfl hd
      have hinput : (([105] ++ (if false then [45] else []) ++
          ([] ++ c :: rest)) : List Nat) = 105 :: c :: rest := by simp
      rw [hinput, mkDecoder, decode]
      have e1 : advance ⟨105 :: c :: rest, 0⟩ = (.ok 105, ⟨c :: rest, 105⟩) := rfl
      simp only [e1]
      rw [decode_current_eq, if_pos rfl, decode_integer]
      have e2 : advance ⟨c :: rest, 105⟩ = (.ok c, ⟨rest, c⟩) := rfl
      simp only [e2]
      rw [if_neg hc101]
      have e3 : decode_integer_sign ⟨rest, c⟩ = (.ok 1, ⟨rest, c⟩) := by
        rw [decode_integer_sign_eq, if_neg hc45]
      have hloop := decode_number_loop_spec [] f3 0 c rest c rest (by simp)
        (by simp) hc (by omega) (by norm_num [valAcc, i64Max]) (by simp; omega)
      simp only [e3, hloop, e5]
    | cons d0 ds' =>
      have hd0 := hds d0 (by rw [hd]; exact List.mem_cons_self _ _)
      subst hd
      have hinput : (([105] ++ (if false then [45] else []) ++
          ((d0 :: ds') ++ c :: rest)) : List Nat) =
          105 :: d0 :: (ds' ++ c :: rest) := by simp
      rw [hinput, mkDecoder, decode]
      have e1 : advance ⟨105 :: d0 :: (ds' ++ c :: rest), 0⟩ =
        (.ok 105, ⟨d0 :: (ds' ++ c :: rest), 105⟩) := rfl
      simp only [e1]
      rw [decode_current_eq, if_pos rfl, decode_integer]
      have e2 : advance ⟨d0 :: (ds' ++ c :: rest), 105⟩ =
        (.ok d0, ⟨ds' ++ c :: rest, d0⟩) := rfl
      simp only [e2]
      rw [if_neg (by omega : ¬d0 = 101)]
      have hne45 : ¬ d0 = 45 := by omega
      have e3 : decode_integer_sign ⟨ds' ++ c :: rest, d0⟩ =
          (.ok 1, ⟨ds' ++ c :: rest, d0⟩) := by
        rw [decode_integer_sign_eq, if_neg hne45]
      have hloop := decode_number_loop_spec (d0 :: ds') f3 0 d0
        (ds' ++ c :: rest) c rest (by simp) hds hc (by omega) hval
        (by simp at hf ⊢; omega)
      simp only [e3, hloop, e5]
  | true =>
    cases hd : ds with
    | nil =>
      have hinput : (([105] ++ (if true then [45] else []) ++
          ([] ++ c :: rest)) : List Nat) = 105 :: 45 :: c :: rest := by simp
      rw [hinput, mkDecoder, decode]
      have e1 : advance ⟨105 :: 45 :: c :: rest, 0⟩ =
        (.ok 105, ⟨45 :: c :: rest, 105⟩) := rfl
      simp only [e1]
      rw [decode_current_eq, if_pos rfl, decode_integer]
      have e2 : advance ⟨45 :: c :: rest, 105⟩ = (.ok 45, ⟨c :: rest, 45⟩) := rfl
      simp only [e2]
      rw [if_neg (by omega : ¬(45 : Nat) = 101)]
      have e3 : decode_integer_sign ⟨c :: rest, 45⟩ = (.ok (-1), ⟨rest, c⟩) := by
        rw [decode_integer_sign_eq, if_pos rfl]; rfl
      have hloop := decode_number_loop_spec [] f3 0 c rest c rest (by simp)
        (by simp) hc (by omega) (by norm_num [valAcc, i64Max]) (by simp; omega)
      simp only [e3, hloop, e5]
    | cons d0 ds' =>
      have hd0 := hds d0 (by rw [hd]; exact List.mem_cons_self _ _)
      subst hd
      have hinput : (([105] ++ (if true then [45] else []) ++
          ((d0 :: ds') ++ c :: rest)) : List Nat) =
          105 :: 45 :: d0 :: (ds' ++ c :: rest) := by simp
      rw [hinput, mkDecoder, decode]
      have e1 : advance ⟨105 :: 45 :: d0 :: (ds' ++ c :: rest), 0⟩ =
        (.ok 105, ⟨45 :: d0 :: (ds' ++ c :: rest), 105⟩) := rfl
      simp only [e1]
      rw [decode_current_eq, if_pos rfl, decode_integer]
      have e2 : advance ⟨45 :: d0 :: (ds' ++ c :: rest), 105⟩ =
        (.ok 45, ⟨d0 :: (ds' ++ c :: rest), 45⟩) := rfl
      simp only [e2]
      rw [if_neg (by omega : ¬(45 : Nat) = 101)]
      have e3 : decode_integer_sign ⟨d0 :: (ds' ++ c :: rest), 45⟩ =
          (.ok (-1), ⟨ds' ++ c :: rest, d0⟩) := by
        rw [decode_integer_sign_eq, if_pos rfl]; rfl
      have hloop := decode_number_loop_spec (d0 :: ds') f3 0 d0
        (ds' ++ c :: rest) c rest (by simp) hds hc (by omega) hval
        (by simp at hf ⊢; omega)
      simp only [e3, hloop, e5]

/-- A string literal: a digit run for the length, `:`, then exactly that
many payload bytes; any trailing bytes are left unread. -/
theorem decode_string_trailing (ds bs rest : List Nat) (fuel : Nat)
    (hds : ∀ b ∈ ds, 48 ≤ b ∧ b ≤ 57) (hne : ds ≠ [])
    (hval : valAcc 0 ds ≤ i64Max) (hlen : (valAcc 0 ds).toNat = bs.length)
    (hf : ds.length + 4 ≤ fuel) :
    decode fuel (mkDecoder (ds ++ 58 :: (bs ++ rest))) =
      (.ok (.string bs), ⟨rest, 58⟩) := by
  cases hd : ds with
  | nil => exact absurd hd hne
  | cons d0 ds' =>
    subst hd
    have hd0 := hds d0 (List.mem_cons_self _ _)
    obtain ⟨f1, rfl⟩ : ∃ f, fuel = f + 1 := ⟨fuel - 1, by omega⟩
    obtain ⟨f2, rfl⟩ : ∃ f, f1 = f + 1 := ⟨f1 - 1, by omega⟩
    rw [mkDecoder, decode]
    rw [show ((d0 :: ds') ++ 58 :: (bs ++ rest) : List Nat)
        = d0 :: (ds' ++ 58 :: (bs ++ rest)) from by simp]
    have e1 : advance ⟨d0 :: (ds' ++ 58 :: (bs ++ rest)), 0⟩ =
      (.ok d0, ⟨ds' ++ 58 :: (bs ++ rest), d0⟩) := rfl
    simp only [e1]
    rw [decode_current_eq]
    rw [if_neg (by omega : ¬d0 = 105), if_pos hd0]
    exact decode_string_general (d0 :: ds') bs rest f2 hds hval hlen
      (by simp at hf ⊢; omega) d0 ds' rfl

/-- C1: the claim says an unrecognized leading byte yields an
`UnrecognizedTag` decode error and never panics.  The code's
`decode_current` has `todo!()` for that case — a panic — and
`DecoderError` has no `UnrecognizedTag` variant at all: decoding the
single byte `x` (or `:`, or a leading terminator `e`) reaches the
panic. -/
theorem unrecognized_tag_panics :
    (decode 2 (mkDecoder [120])).1 = .panicked ∧
    (decode 2 (mkDecoder [58])).1 = .panicked ∧
    (decode 2 (mkDecoder [101])).1 = .panicked :=
  ⟨rfl, rfl, rfl⟩

/-- C2: the claim (and the repository's own test
`test_decode_dictionary_missing_value`) says decoding
`d3:cow3:moo4:spame` returns `DictionaryValueMissing`.  In the code the
value position holds the terminator `e`, which is fed to
`decode_current` and reaches `todo!()`: the decoder panics instead, and
`DictionaryValueMissing` is never constructed anywhere in the
decoder. -/
theorem dictionary_missing_value_panics :
    (decode 50 (mkDecoder [100, 51, 58, 99, 111, 119, 51, 58, 109, 111, 111,
      52, 58, 115, 112, 97, 109, 101])).1 = .panicked := rfl

/-- C3 counterexample: the claim extends the round-trip to every
Integer in the signed 64-bit range, but `encode` then `decode` of
`i64::MIN` fails with `IntegerOverflow` — the decoder accumulates the
magnitude 2^63 before applying the sign, and 2^63 overflows `i64`. -/
theorem round_trip_min_counterexample :
    (decode 30 (mkDecoder (encode (.integer (-9223372036854775808))))).1 =
      .err .IntegerOverflow ∧
    (decode 30 (mkDecoder (encode (.integer (-9223372036854775808))))).1 ≠
      .ok (.integer (-9223372036854775808)) := by
  have h : (decode 30 (mkDecoder (encode (.integer (-9223372036854775808))))).1 =
      .err .IntegerOverflow := rfl
  refine ⟨h, ?_⟩
  rw [h]
  simp

/-- C3 (amended): for every well-formed value — dictionary keys valid
UTF-8 and strictly ascending, string and key lengths within `i64`, and
every integer strictly greater than `i64::MIN` — decoding the encoding
with sufficient fuel returns the value itself, consuming the whole
input. -/
theorem round_trip (v : Bencode) (hwf : wf v = true) (fuel : Nat)
    (hf : fuelCur v + 1 ≤ fuel) :
    decode fuel (mkDecoder (encode v)) = (.ok v, ⟨[], finalCur v⟩) := by
  have h := decode_encode_spec v hwf fuel hf [] 0
  rw [List.append_nil] at h
  exact h

theorem round_trip_witness :
    decode 80 (mkDecoder (encode (.dictionary [([99, 111, 119],
        .list [.integer (-12), .string [1, 2]]),
        ([115, 112, 97, 109], .integer 0)]))) =
      (.ok (.dictionary [([99, 111, 119], .list [.integer (-12), .string [1, 2]]),
        ([115, 112, 97, 109], .integer 0)]), ⟨[], 101⟩) :=
  round_trip _ (by decide) 80 (by decide)

/-- C4 counterexample: decoding `i-9223372036854775808e`, the decimal
representation of the in-range value `i64::MIN`, returns
`IntegerOverflow` instead of succeeding: the digit magnitude 2^63
overflows during accumulation before the sign is applied. -/
theorem integer_min_decode_counterexample :
    (decode 30 (mkDecoder [105, 45, 57, 50, 50, 51, 51, 55, 50, 48, 51, 54,
      56, 53, 52, 55, 55, 53, 56, 48, 56, 101])).1 = .err .IntegerOverflow := rfl

/-- C4 (amended): decoding `i` + decimal of `n` + `e` succeeds with
`Integer n` for every `n` with `-2^63 < n < 2^63`; and `IntegerOverflow`
is returned only for inputs whose digit run's magnitude (the number the
digits denote, ignoring the sign) exceeds `2^63 - 1` — never when the
magnitude fits, as the second conjunct states for every digit run.
Because the magnitude is accumulated before the sign is applied, the
out-of-range magnitudes include the input for the in-range value
`-2^63` (see the counterexample theorem). -/
theorem integer_decode_range :
    (∀ n : Int, ∀ fuel : Nat, -9223372036854775808 < n →
      n ≤ 9223372036854775807 → (intToDecimal n).length + 5 ≤ fuel →
      (decode fuel (mkDecoder (encode_number n))).1 = .ok (.integer n)) ∧
    (∀ (neg : Bool) (ds rest : List Nat) (fuel : Nat),
      (∀ b ∈ ds, 48 ≤ b ∧ b ≤ 57) → ds ≠ [] →
      valAcc 0 ds ≤ 9223372036854775807 → ds.length + 4 ≤ fuel →
      (decode fuel (mkDecoder ([105] ++ (if neg then [45] else []) ++
        (ds ++ 101 :: rest)))).1 ≠ .err .IntegerOverflow) := by
  constructor
  · intro n fuel hmin hmax hf
    have h := decode_encode_spec (.integer n)
      (by rw [wf, Bool.and_eq_true, decide_eq_true_eq, decide_eq_true_eq]
          exact ⟨by simpa [i64Min] using hmin, by simpa [i64Max] using hmax⟩)
      fuel (by rw [fuelCur]; omega) [] 0
    rw [List.append_nil] at h
    rw [show encode (.integer n) = encode_number n from rfl] at h
    rw [mkDecoder, h]
  · intro neg ds rest fuel h1 h2 h3 h4
    rw [decode_integer_general neg ds rest fuel h1 h2
      (by simpa [i64Max] using h3) h4]
    simp

theorem integer_decode_range_witness :
    (decode 20 (mkDecoder (encode_number (-42)))).1 = .ok (.integer (-42)) :=
  integer_decode_range.1 (-42) 20 (by decide) (by decide) (by decide)

/-- C5 counterexample: the claim says decoding `i-e` yields the
not-a-number error; it actually succeeds with `Integer 0` — the `-`
sign is consumed, the empty digit run accumulates to 0, and the
terminator `e` is accepted. -/
theorem minus_e_not_nan :
    decode 9 (mkDecoder [105, 45, 101]) = (.ok (.integer 0), ⟨[], 101⟩) ∧
    (decode 9 (mkDecoder [105, 45, 101])).1 ≠ .err .NAN := by
  have h : decode 9 (mkDecoder [105, 45, 101]) = (.ok (.integer 0), ⟨[], 101⟩) := rfl
  refine ⟨h, ?_⟩
  rw [show (decode 9 (mkDecoder [105, 45, 101])).1 = .ok (.integer 0) from rfl]
  simp

/-- C5 (amended): decoding `i-e` succeeds with `Integer 0` (a sign with
no digits is accepted as negative zero); and any byte that is neither a
digit nor the terminator `e`, reached after the optional sign and a
digit run whose value fits in `i64`, yields the `NAN` error. -/
theorem integer_nan_cases :
    (decode 9 (mkDecoder [105, 45, 101])).1 = .ok (.integer 0) ∧
    (∀ neg ds c rest fuel, (∀ b ∈ ds, 48 ≤ b ∧ b ≤ 57) →
      ¬(48 ≤ c ∧ c ≤ 57) → c ≠ 101 → (neg = false → ds = [] → c ≠ 45) →
      valAcc 0 ds ≤ 9223372036854775807 → ds.length + 4 ≤ fuel →
      (decode fuel (mkDecoder ([105] ++ (if neg then [45] else []) ++
        (ds ++ c :: rest)))).1 = .err .NAN) := by
  refine ⟨rfl, ?_⟩
  intro neg ds c rest fuel h1 h2 h3 h4 h5 h6
  rw [decode_integer_nan_general neg ds c rest fuel h1 h2 h3 h4
    (by simpa [i64Max] using h5) h6]

theorem integer_nan_cases_witness :
    (decode 20 (mkDecoder [105, 49, 50, 51, 97, 49, 50, 51, 101])).1 =
      .err .NAN :=
  integer_nan_cases.2 false [49, 50, 51] 97 [49, 50, 51, 101] 20 (by decide)
    (by decide) (by decide) (by intro h1 h2; exact absurd h2 (by decide))
    (by decide) (by decide)

/-- C6: for every insertion sequence, the dictionary map built by
repeated `BTreeMap::insert` has its keys in strictly ascending
byte-lexicographic order (and `encode_pairs` emits pairs in exactly
that list order); in particular inserting `spam ↦ eggs` and then
`cow ↦ moo` encodes to `d3:cow3:moo4:spam4:eggse`, with `cow` before
`spam`. -/
theorem dictionary_keys_sorted :
    (∀ pairs : List (List Nat × Bencode), sortedKeys (buildMap pairs) = true) ∧
    encode (.dictionary (buildMap [([115, 112, 97, 109], .string [101, 103, 103, 115]),
      ([99, 111, 119], .string [109, 111, 111])])) =
      [100, 51, 58, 99, 111, 119, 51, 58, 109, 111, 111,
       52, 58, 115, 112, 97, 109, 52, 58, 101, 103, 103, 115, 101] := by
  constructor
  · intro pairs
    exact (sortedKeys_iff_pairwise _).mpr (buildMap_pairwise pairs)
  · rfl

/-- C7: the integer boundary behaviors — `i9223372036854775807e`
decodes to `i64::MAX`, `i9223372036854775808e` fails with
`IntegerOverflow`, `ie` fails with `EmptyNumber`, and both `i-0e` and
`i0e` decode successfully (to `Integer 0`). -/
theorem integer_boundaries :
    (decode 30 (mkDecoder [105, 57, 50, 50, 51, 51, 55, 50, 48, 51, 54, 56,
      53, 52, 55, 55, 53, 56, 48, 55, 101])).1 = .ok (.integer 9223372036854775807) ∧
    (decode 30 (mkDecoder [105, 57, 50, 50, 51, 51, 55, 50, 48, 51, 54, 56,
      53, 52, 55, 55, 53, 56, 48, 56, 101])).1 = .err .IntegerOverflow ∧
    (decode 9 (mkDecoder [105, 101])).1 = .err .EmptyNumber ∧
    (decode 9 (mkDecoder [105, 45, 48, 101])).1 = .ok (.integer 0) ∧
    (decode 9 (mkDecoder [105, 48, 101])).1 = .ok (.integer 0) :=
  ⟨rfl, rfl, rfl, rfl, rfl⟩

/-- C8: string boundary behaviors — `0:` decodes to the empty string,
`4:spam` decodes to `spam` leaving nothing unread, `4:spa` fails with
the end-of-input error `EOF`, and in general any string literal with
trailing bytes decodes to exactly the declared payload, leaving the
trailing bytes unconsumed. -/
theorem string_boundaries :
    decode 9 (mkDecoder [48, 58]) = (.ok (.string []), ⟨[], 58⟩) ∧
    decode 9 (mkDecoder [52, 58, 115, 112, 97, 109]) =
      (.ok (.string [115, 112, 97, 109]), ⟨[], 58⟩) ∧
    (decode 9 (mkDecoder [52, 58, 115, 112, 97])).1 = .err .EOF ∧
    (∀ ds bs rest fuel, (∀ b ∈ ds, 48 ≤ b ∧ b ≤ 57) → ds ≠ [] →
      valAcc 0 ds ≤ 9223372036854775807 → (valAcc 0 ds).toNat = bs.length →
      ds.length + 4 ≤ fuel →
      decode fuel (mkDecoder (ds ++ 58 :: (bs ++ rest))) =
        (.ok (.string bs), ⟨rest, 58⟩)) := by
  refine ⟨rfl, rfl, rfl, ?_⟩
  intro ds bs rest fuel h1 h2 h3 h4 h5
  exact decode_string_trailing ds bs rest fuel h1 h2
    (by simpa [i64Max] using h3) h4 h5

theorem string_boundaries_witness :
    decode 9 (mkDecoder [52, 58, 115, 112, 97, 109, 43]) =
      (.ok (.string [115, 112, 97, 109]), ⟨[43], 58⟩) :=
  string_boundaries.2.2.2 [52] [115, 112, 97, 109] [43] 9 (by decide)
    (by decide) (by decide) (by decide) (by decide)

/-- C9: a dictionary key decoding to the empty byte string is accepted —
`d0:4:spame` decodes to the dictionary mapping the empty key to `spam` —
and no decoder routine ever returns the `DictionaryEmptyKey` error, for
any input and any fuel. -/
theorem dictionary_empty_key_ok :
    decode 20 (mkDecoder [100, 48, 58, 52, 58, 115, 112, 97, 109, 101]) =
      (.ok (.dictionary [([], .string [115, 112, 97, 109])]), ⟨[], 101⟩) ∧
    (∀ fuel d, (decode fuel d).1 ≠ .err .DictionaryEmptyKey) :=
  ⟨rfl, fun fuel d => (never_empty_key fuel).1 d⟩

/-- C10: `i-0e` decodes to `Integer 0`, structurally equal to the result
of `i0e`; and in general, for every digit run denoting zero, the decoded
value with a leading `-` sign equals the value decoded without it, both
being `Integer 0`. -/
theorem minus_zero_equals_zero :
    (decode 9 (mkDecoder [105, 45, 48, 101])).1 = .ok (.integer 0) ∧
    (decode 9 (mkDecoder [105, 48, 101])).1 = .ok (.integer 0) ∧
    (∀ ds rest fuel, (∀ b ∈ ds, 48 ≤ b ∧ b ≤ 57) → ds ≠ [] →
      valAcc 0 ds = 0 → ds.length + 4 ≤ fuel →
      (decode fuel (mkDecoder (105 :: 45 :: (ds ++ 101 :: rest)))).1 =
        (decode fuel (mkDecoder (105 :: (ds ++ 101 :: rest)))).1 ∧
      (decode fuel (mkDecoder (105 :: 45 :: (ds ++ 101 :: rest)))).1 =
        .ok (.integer 0)) := by
  refine ⟨rfl, rfl, ?_⟩
  intro ds rest fuel h1 h2 h3 h4
  have hneg := decode_integer_general true ds rest fuel h1 h2
    (by norm_num [h3, i64Max]) h4
  have hpos := decode_integer_general false ds rest fuel h1 h2
    (by norm_num [h3, i64Max]) h4
  have hn : (105 :: 45 :: (ds ++ 101 :: rest) : List Nat) =
      [105] ++ (if true then [45] else []) ++ (ds ++ 101 :: rest) := by simp
  have hp : (105 :: (ds ++ 101 :: rest) : List Nat) =
      [105] ++ (if false then [45] else []) ++ (ds ++ 101 :: rest) := by simp
  constructor
  · rw [hn, hp, hneg, hpos]
    simp [h3]
  · rw [hn, hneg]
    simp [h3]

theorem minus_zero_witness :
    (decode 9 (mkDecoder [105, 45, 48, 48, 101])).1 =
      (decode 9 (mkDecoder [105, 48, 48, 101])).1 ∧
    (decode 9 (mkDecoder [105, 45, 48, 48, 101])).1 = .ok (.integer 0) :=
  minus_zero_equals_zero.2.2 [48, 48] [] 9 (by decide) (by decide) (by decide)
    (by decide)
